import Mathlib

set_option autoImplicit false

/-!
Shallow embedding of xi-editor's configuration engine
(`rust/core-lib/src/config.rs`): dynamically typed settings values,
settings tables, per-domain config pairs with validation, the
precedence-chain table stack, and the config manager.
-/

namespace XiConfig

/-- A dynamically typed settings value (`serde_json::Value`); numbers are
modelled as integers. -/
inductive Value where
  | null
  | bool (b : Bool)
  | num (n : Int)
  | str (s : String)
  | arr (elts : List Value)
  | obj (entries : List (String × Value))
  deriving Repr

mutual

/-- Decidable equality of values (the derive handler does not support the
nested occurrence of `Value` under `List`). -/
def Value.decEq : (a b : Value) → Decidable (a = b)
  | .null, .null => isTrue rfl
  | .null, .bool _ => isFalse nofun
  | .null, .num _ => isFalse nofun
  | .null, .str _ => isFalse nofun
  | .null, .arr _ => isFalse nofun
  | .null, .obj _ => isFalse nofun
  | .bool _, .null => isFalse nofun
  | .bool a, .bool b =>
    if h : a = b then isTrue (by rw [h]) else isFalse (fun hh => h (by injection hh))
  | .bool _, .num _ => isFalse nofun
  | .bool _, .str _ => isFalse nofun
  | .bool _, .arr _ => isFalse nofun
  | .bool _, .obj _ => isFalse nofun
  | .num _, .null => isFalse nofun
  | .num _, .bool _ => isFalse nofun
  | .num a, .num b =>
    if h : a = b then isTrue (by rw [h]) else isFalse (fun hh => h (by injection hh))
  | .num _, .str _ => isFalse nofun
  | .num _, .arr _ => isFalse nofun
  | .num _, .obj _ => isFalse nofun
  | .str _, .null => isFalse nofun
  | .str _, .bool _ => isFalse nofun
  | .str _, .num _ => isFalse nofun
  | .str a, .str b =>
    if h : a = b then isTrue (by rw [h]) else isFalse (fun hh => h (by injection hh))
  | .str _, .arr _ => isFalse nofun
  | .str _, .obj _ => isFalse nofun
  | .arr _, .null => isFalse nofun
  | .arr _, .bool _ => isFalse nofun
  | .arr _, .num _ => isFalse nofun
  | .arr _, .str _ => isFalse nofun
  | .arr a, .arr b =>
    match Value.decEqList a b with
    | isTrue h => isTrue (by rw [h])
    | isFalse h => isFalse (fun hh => h (by injection hh))
  | .arr _, .obj _ => isFalse nofun
  | .obj _, .null => isFalse nofun
  | .obj _, .bool _ => isFalse nofun
  | .obj _, .num _ => isFalse nofun
  | .obj _, .str _ => isFalse nofun
  | .obj _, .arr _ => isFalse nofun
  | .obj a, .obj b =>
    match Value.decEqEntries a b with
    | isTrue h => isTrue (by rw [h])
    | isFalse h => isFalse (fun hh => h (by injection hh))

/-- Decidable equality of value lists. -/
def Value.decEqList : (a b : List Value) → Decidable (a = b)
  | [], [] => isTrue rfl
  | [], _ :: _ => isFalse nofun
  | _ :: _, [] => isFalse nofun
  | x :: xs, y :: ys =>
    match Value.decEq x y with
    | isFalse h1 => isFalse (fun hh => by injection hh with h3 h4; exact h1 h3)
    | isTrue h1 =>
      match Value.decEqList xs ys with
      | isTrue h2 => isTrue (by rw [h1, h2])
      | isFalse h2 => isFalse (fun hh => by injection hh with h3 h4; exact h2 h4)

/-- Decidable equality of key-value entry lists. -/
def Value.decEqEntries : (a b : List (String × Value)) → Decidable (a = b)
  | [], [] => isTrue rfl
  | [], _ :: _ => isFalse nofun
  | _ :: _, [] => isFalse nofun
  | (k1, v1) :: xs, (k2, v2) :: ys =>
    if hk : k1 = k2 then
      match Value.decEq v1 v2 with
      | isFalse h1 => isFalse (fun hh => by
          injection hh with h3 h4
          injection h3 with hk2 hv2
          exact h1 hv2)
      | isTrue h1 =>
        match Value.decEqEntries xs ys with
        | isTrue h2 => isTrue (by rw [hk, h1, h2])
        | isFalse h2 => isFalse (fun hh => by injection hh with h3 h4; exact h2 h4)
    else
      isFalse (fun hh => by
        injection hh with h3 h4
        injection h3 with hk2 hv2
        exact hk hk2)

end

instance : DecidableEq Value := Value.decEq

/-- `Value::is_null`. -/
def Value.is_null : Value → Bool
  | .null => true
  | _ => false

/-- A map of config keys to settings (`serde_json::Map<String, Value>`),
modelled as an association list whose operations follow map semantics. -/
abbrev Table := List (String × Value)

namespace Table

/-- `Map::get`: the value at `key`, scanning entries in order. -/
def get : Table → String → Option Value
  | [], _ => none
  | (k, v) :: rest, key => if k = key then some v else get rest key

/-- `Map::insert`: replace the value at `key` if present, else append the
new entry. -/
def insert : Table → String → Value → Table
  | [], key, val => [(key, val)]
  | (k, v) :: rest, key, val =>
    if k = key then (key, val) :: rest else (k, v) :: insert rest key val

/-- `Map::remove`: drop the entry at `key`. -/
def remove : Table → String → Table
  | [], _ => []
  | (k, v) :: rest, key =>
    if k = key then remove rest key else (k, v) :: remove rest key

/-- `Map::contains_key`. -/
def contains_key (t : Table) (key : String) : Bool :=
  (get t key).isSome

/-- The keys of a table, in entry order. -/
def keys (t : Table) : List String :=
  t.map Prod.fst

/-- A well-formed table has no repeated key, as holds for every
`serde_json::Map`. -/
def NodupKeys (t : Table) : Prop :=
  (keys t).Nodup

end Table

/-- Modelled from the spec: syntax identifiers come from the external
syntax module (`syntax::SyntaxDefinition`, not part of this source tree);
we model them as a name drawn from a fixed set of recognized names. -/
structure SyntaxDefinition where
  name : String
  deriving DecidableEq, Repr

/-- Modelled from the spec: the fixed set of syntax names recognized by the
external `SyntaxDefinition::try_from_name`; a representative list. -/
def knownSyntaxNames : List String :=
  ["rust", "python", "yaml", "makefile", "dart", "swift", "c", "go", "toml", "json"]

/-- Modelled from the spec: `SyntaxDefinition::try_from_name` resolves a
recognized name to a syntax, and nothing else. -/
def SyntaxDefinition.try_from_name (s : String) : Option SyntaxDefinition :=
  if knownSyntaxNames.contains s then some ⟨s⟩ else none

/-- Modelled from the spec: view identifiers come from the external tabs
module (`tabs::ViewIdentifier`); an opaque identifier with value equality. -/
structure ViewIdentifier where
  id : String
  deriving DecidableEq, Repr

/-- `ConfigDomain`: a level or category of user settings. -/
inductive ConfigDomain where
  /-- The general user preferences. -/
  | General
  /-- The overrides for a particular syntax (source name: `Syntax`). -/
  | Syn (s : SyntaxDefinition)
  /-- The user overrides for a particular buffer. -/
  | UserOverride (v : ViewIdentifier)
  /-- The system's overrides for a particular buffer. -/
  | SysOverride (v : ViewIdentifier)
  deriving DecidableEq, Repr

/-- `ConfigError`: the errors that can occur when managing configs.
The `Parse` and `Io` variants wrap external toml/io payloads and never
arise in the core logic modelled here. -/
inductive ConfigError where
  /-- The config contains a key that is invalid for its domain. -/
  | IllegalKey (key : String)
  /-- The config domain was not recognized. -/
  | UnknownDomain (name : String)
  deriving DecidableEq, Repr

/-- Decidable equality of `Except` results, used to evaluate concrete
calls. -/
instance {ε α : Type} [DecidableEq ε] [DecidableEq α] : DecidableEq (Except ε α) :=
  fun a b =>
    match a, b with
    | .ok x, .ok y =>
      if h : x = y then isTrue (by rw [h]) else isFalse (fun hh => h (by injection hh))
    | .error x, .error y =>
      if h : x = y then isTrue (by rw [h]) else isFalse (fun hh => h (by injection hh))
    | .ok _, .error _ => isFalse nofun
    | .error _, .ok _ => isFalse nofun

namespace defaults

/-- `defaults::GENERAL_KEYS`: config keys legal in most config files. -/
def GENERAL_KEYS : List String :=
  ["tab_size", "line_ending", "translate_tabs_to_spaces", "font_face", "font_size"]

/-- `defaults::TOP_LEVEL_KEYS`: config keys only legal at the top level. -/
def TOP_LEVEL_KEYS : List String :=
  ["plugin_search_path"]

end defaults

/-- `KeyValidator`: checks keys against a whitelist (the source stores a
`HashSet<String>`; we keep the list it is collected from). -/
structure KeyValidator where
  keys : List String
  deriving DecidableEq, Repr

/-- `KeyValidator::for_domain`: the whitelist appropriate to a domain. -/
def KeyValidator.for_domain : ConfigDomain → KeyValidator
  | .General => ⟨defaults.GENERAL_KEYS ++ defaults.TOP_LEVEL_KEYS⟩
  | .Syn _ => ⟨defaults.GENERAL_KEYS⟩
  | .UserOverride _ => ⟨defaults.GENERAL_KEYS⟩
  | .SysOverride _ => ⟨defaults.GENERAL_KEYS⟩

/-- `KeyValidator::validate` (the `Validator` impl): key membership only,
the value is ignored. -/
def KeyValidator.validate (v : KeyValidator) (key : String) (_value : Value) :
    Except ConfigError Unit :=
  if v.keys.contains key then .ok () else .error (.IllegalKey key)

/-- The loop body of `Validator::validate_table`: validate each entry in
order, failing on the first violation. -/
def KeyValidator.validate_entries (v : KeyValidator) :
    List (String × Value) → Except ConfigError Unit
  | [] => .ok ()
  | (key, val) :: rest =>
    match v.validate key val with
    | .error e => .error e
    | .ok _ => v.validate_entries rest

/-- `Validator::validate_table`. -/
def KeyValidator.validate_table (v : KeyValidator) (t : Table) :
    Except ConfigError Unit :=
  v.validate_entries t

/-- `ConfigPair`: default settings masked by user settings, with a cached
merged snapshot. -/
structure ConfigPair where
  /-- A static default configuration, which will never change. -/
  base : Option Table
  /-- A variable, user provided configuration: takes precedence over `base`. -/
  user : Option Table
  /-- A snapshot of base + user. -/
  cache : Table
  validator : KeyValidator
  deriving DecidableEq, Repr

/-- `ConfigPair::rebuild`: cache is a copy of `base` overwritten with every
entry of `user`. -/
def ConfigPair.rebuild (p : ConfigPair) : ConfigPair :=
  let cache := p.base.getD []
  let cache :=
    match p.user with
    | some user => user.foldl (fun c kv => Table.insert c kv.1 kv.2) cache
    | none => cache
  { p with cache := cache }

/-- `ConfigPair::set_table`: validate wholesale, then replace `user`
entirely and rebuild the cache. -/
def ConfigPair.set_table (p : ConfigPair) (user : Table) :
    Except ConfigError ConfigPair :=
  match p.validator.validate_table user with
  | .error e => .error e
  | .ok _ => .ok ({ p with user := some user }.rebuild)

/-- `ConfigPair::update_table`: validate wholesale, then apply the changes
onto the existing `user` table (null removes, non-null inserts) and
rebuild the cache. -/
def ConfigPair.update_table (p : ConfigPair) (changes : Table) :
    Except ConfigError ConfigPair :=
  match p.validator.validate_table changes with
  | .error e => .error e
  | .ok _ =>
    let conf := p.user.getD []
    let conf := changes.foldl
      (fun c kv => if kv.2.is_null then Table.remove c kv.1 else Table.insert c kv.1 kv.2)
      conf
    .ok ({ p with user := some conf }.rebuild)

/-- Association-list lookup, modelling `HashMap::get`. -/
def alistGet {α β : Type} [DecidableEq α] : List (α × β) → α → Option β
  | [], _ => none
  | (k, v) :: rest, key => if k = key then some v else alistGet rest key

/-! ### File paths

`std::path` types are external to the config module; we model a path as
its absoluteness flag plus its list of normal components, with the
`Path` accessors the source uses (`parent`, `file_stem`, `extension`,
`join`). -/

/-- A file-system path (`std::path::PathBuf`). -/
structure FsPath where
  absolute : Bool
  components : List String
  deriving DecidableEq, Repr

/-- `Path::file_name`: the last component. -/
def FsPath.file_name (p : FsPath) : Option String :=
  p.components.getLast?

/-- `Path::parent`: the path without its last component; `none` for an
empty or root path. -/
def FsPath.parent (p : FsPath) : Option FsPath :=
  match p.components with
  | [] => none
  | _ :: _ => some ⟨p.absolute, p.components.dropLast⟩

/-- Split a character list at every occurrence of `sep` (the core string
functions do not reduce in the kernel, so we work on character lists). -/
def splitOnChar (sep : Char) : List Char → List (List Char)
  | [] => [[]]
  | x :: rest =>
    match splitOnChar sep rest with
    | [] => [[]]
    | g :: gs => if x = sep then [] :: g :: gs else (x :: g) :: gs

/-- Join character-list groups with `sep` between them. -/
def joinWithChar (sep : Char) : List (List Char) → List Char
  | [] => []
  | [g] => g
  | g :: gs => g ++ sep :: joinWithChar sep gs

/-- Split a file name into Rust's `file_stem` and `extension` parts: no
embedded dot, or a lone leading dot, gives no extension; otherwise the
extension is the part after the final dot. -/
def fileStemExt (name : String) : String × Option String :=
  match splitOnChar (Char.ofNat 46) name.data with
  | [] => (name, none)
  | [_] => (name, none)
  | [] :: [_] => (name, none)
  | parts =>
    (String.mk (joinWithChar (Char.ofNat 46) parts.dropLast),
      some (String.mk (parts.getLastD [])))

/-- `Path::file_stem`. -/
def FsPath.file_stem (p : FsPath) : Option String :=
  p.file_name.map (fun n => (fileStemExt n).1)

/-- `Path::extension`. -/
def FsPath.extension (p : FsPath) : Option String :=
  p.file_name.bind (fun n => (fileStemExt n).2)

/-- `Path::join`: appending an absolute path replaces the whole path. -/
def FsPath.join (p q : FsPath) : FsPath :=
  if q.absolute then q else ⟨p.absolute, p.components ++ q.components⟩

/-- Parse a string into a path (`PathBuf::from`): absolute iff it starts
with a separator; empty components are ignored. -/
def strToPath (s : String) : FsPath :=
  let absolute :=
    match s.data with
    | c :: _ => c == Char.ofNat 47
    | [] => false
  ⟨absolute,
    ((splitOnChar (Char.ofNat 47) s.data).map (fun g => String.mk g)).filter
      (fun c => c != "")⟩

/-- `ConfigDomain::try_from_path`: parse a file name into a domain. The
source unwraps `file_stem`; callers only pass paths with a file name. -/
def ConfigDomain.try_from_path (p : FsPath) : Except ConfigError ConfigDomain :=
  let file_stem := p.file_stem.getD ""
  if file_stem = "preferences" then .ok .General
  else
    match SyntaxDefinition.try_from_name file_stem with
    | some s => .ok (.Syn s)
    | none => .error (.UnknownDomain file_stem)

/-! ### TableStack and Config -/

/-- `TableStack`: a hierarchy of config tables, each table's keys
superseding keys in following tables (index 0 = highest precedence). -/
structure TableStack where
  tables : List Table
  deriving DecidableEq, Repr

/-- The loop of `TableStack::get`: first table containing the key wins. -/
def TableStack.getFrom : List Table → String → Option Value
  | [], _ => none
  | t :: rest, key =>
    match Table.get t key with
    | some v => some v
    | none => TableStack.getFrom rest key

/-- `TableStack::get`: walk the tables in priority order, returning the
first occurrence of `key`. -/
def TableStack.get (s : TableStack) (key : String) : Option Value :=
  TableStack.getFrom s.tables key

/-- `TableStack::collate`: flatten into a single table, inserting a key
only the first time it is seen. -/
def TableStack.collate (s : TableStack) : Table :=
  s.tables.foldl
    (fun out t =>
      t.foldl
        (fun out kv =>
          if Table.contains_key out kv.1 then out else Table.insert out kv.1 kv.2)
        out)
    []

/-- `TableStack::diff`: the keys of `self`'s collation whose value differs
from `other.get`; `none` when nothing differs. -/
def TableStack.diff (s other : TableStack) : Option Table :=
  let this := s.collate
  this.foldl
    (fun out kv =>
      if other.get kv.1 ≠ some kv.2 then
        some (Table.insert (out.getD []) kv.1 kv.2)
      else out)
    none

/-- `Config<T>`: a frozen collection of settings and their sources. The
typed `items` payload comes from external serde deserialization; we model
it by the collated table it is deserialized from. -/
structure Config where
  source : TableStack
  items : Table
  deriving DecidableEq, Repr

/-- `TableStack::into_config`. -/
def TableStack.into_config (s : TableStack) : Config :=
  let out := s.collate
  { source := s, items := out }

/-! ### ConfigManager -/

/-- `ConfigManager`: config pairs for all in-use domains, file sources,
and the optional config/extras directories. -/
structure ConfigManager where
  configs : List (ConfigDomain × ConfigPair)
  sources : List (FsPath × ConfigDomain)
  config_dir : Option FsPath
  extras_dir : Option FsPath

/-- `serde_json::from_value::<Vec<PathBuf>>` on an array value: every
element must be a string. -/
def valuesToPaths : List Value → Option (List FsPath)
  | [] => some []
  | .str s :: rest => (valuesToPaths rest).map (fun l => strToPath s :: l)
  | _ :: _ => none

/-- `serde_json::from_value::<Vec<PathBuf>>`. -/
def valueToPathList : Value → Option (List FsPath)
  | .arr elts => valuesToPaths elts
  | _ => none

/-- `ConfigManager::plugin_search_path`: the array under the reserved key
in the General domain's cache, each entry joined onto the config dir when
one is set, with the extras dir appended last when set. The source
unwraps the lookups; `none` models those panics. -/
def ConfigManager.plugin_search_path (m : ConfigManager) : Option (List FsPath) :=
  match alistGet m.configs ConfigDomain.General with
  | none => none
  | some pair =>
    match Table.get pair.cache "plugin_search_path" with
    | none => none
    | some val =>
      match valueToPathList val with
      | none => none
      | some sp =>
        let sp :=
          match m.config_dir with
          | some config_dir => sp.map (fun p => config_dir.join p)
          | none => sp
        let sp :=
          match m.extras_dir with
          | some sys_path => sp ++ [sys_path]
          | none => sp
        some sp

/-- `ConfigManager::should_load_file`: a config-file extension, a file
name that parses to a domain, and direct parentage under the config
directory. -/
def ConfigManager.should_load_file (m : ConfigManager) (p : FsPath) : Bool :=
  p.extension == some "xiconfig" &&
    (match ConfigDomain.try_from_path p with | .ok _ => true | .error _ => false) &&
    (m.config_dir.map (fun d => some d == p.parent)).getD false

/-- `ConfigManager::get_buffer_config`: look up the pairs for General,
the syntax, and the view's system and user overrides, drop the missing
ones, take their caches, and reverse so the most specific is first. -/
def ConfigManager.get_buffer_config (m : ConfigManager)
    (syn : Option SyntaxDefinition) (view_id : Option ViewIdentifier) : Config :=
  let configs : List (Option ConfigPair) :=
    [alistGet m.configs ConfigDomain.General]
    ++ (syn.map (fun s => alistGet m.configs (ConfigDomain.Syn s))).toList
    ++ (view_id.map (fun v => alistGet m.configs (ConfigDomain.SysOverride v))).toList
    ++ (view_id.map (fun v => alistGet m.configs (ConfigDomain.UserOverride v))).toList
  let tables := ((configs.filterMap id).map (fun c => c.cache)).reverse
  TableStack.into_config ⟨tables⟩

/-- The domains `get_buffer_config` consults, in the order the source
pushes them (most general first). -/
def queriedDomains (syn : Option SyntaxDefinition) (view_id : Option ViewIdentifier) :
    List ConfigDomain :=
  [ConfigDomain.General]
  ++ (syn.map ConfigDomain.Syn).toList
  ++ (view_id.map ConfigDomain.SysOverride).toList
  ++ (view_id.map ConfigDomain.UserOverride).toList

/-! ### Mutating call sequences on a `ConfigPair` -/

/-- A mutating call on a `ConfigPair`. -/
inductive PairCall where
  | set (t : Table)
  | update (t : Table)
  deriving DecidableEq, Repr

/-- A call is well formed when its table has no repeated key, as holds for
every table produced by `serde_json`. -/
def PairCall.Wf : PairCall → Prop
  | .set t => Table.NodupKeys t
  | .update t => Table.NodupKeys t

/-- Run one mutating call: the source methods take `&mut self` and leave
the pair untouched when they return an error. -/
def ConfigPair.applyCall (p : ConfigPair) : PairCall → ConfigPair
  | .set t =>
    match p.set_table t with
    | .ok q => q
    | .error _ => p
  | .update t =>
    match p.update_table t with
    | .ok q => q
    | .error _ => p

/-- Run a sequence of mutating calls. -/
def ConfigPair.applyCalls (p : ConfigPair) (cs : List PairCall) : ConfigPair :=
  cs.foldl ConfigPair.applyCall p

/-- The cache invariant: `cache` is the merge of `base` and `user`, with
`user` entries winning for keys present in both, base-only keys keeping
their base value and user-only keys keeping their user value. -/
def ConfigPair.CacheMerged (p : ConfigPair) : Prop :=
  ∀ k, Table.get p.cache k =
    (Table.get (p.user.getD []) k <|> Table.get (p.base.getD []) k)

/-- A well-formed pair carries a user table without repeated keys. -/
def ConfigPair.Wf (p : ConfigPair) : Prop :=
  Table.NodupKeys (p.user.getD [])

/-! ## Lemmas about table operations -/

namespace Table

theorem nodupKeys_nil : NodupKeys ([] : Table) := by
  simp [NodupKeys, keys]

theorem nodupKeys_cons {a : String} {b : Value} {t : Table} :
    NodupKeys ((a, b) :: t) ↔ a ∉ keys t ∧ NodupKeys t := by
  simp [NodupKeys, keys, List.nodup_cons]

theorem keys_nil : keys ([] : Table) = [] := rfl

theorem keys_cons {a : String} {b : Value} {t : Table} :
    keys ((a, b) :: t) = a :: keys t := rfl

theorem get_insert_self (t : Table) (key : String) (v : Value) :
    get (insert t key v) key = some v := by
  induction t with
  | nil => simp [insert, get]
  | cons kv rest ih =>
    obtain ⟨a, b⟩ := kv
    by_cases h : a = key <;> simp [insert, get, h, ih]

theorem get_insert_ne (t : Table) {key k : String} {v : Value} (h : key ≠ k) :
    get (insert t key v) k = get t k := by
  induction t with
  | nil => simp [insert, get, h]
  | cons kv rest ih =>
    obtain ⟨a, b⟩ := kv
    by_cases h2 : a = key
    · subst h2
      simp [insert, get, h]
    · by_cases h3 : a = k <;> simp [insert, get, h2, h3, ih, Ne.symm h]

theorem get_remove_self (t : Table) (key : String) :
    get (remove t key) key = none := by
  induction t with
  | nil => simp [remove, get]
  | cons kv rest ih =>
    obtain ⟨a, b⟩ := kv
    by_cases h : a = key <;> simp [remove, get, h, ih]

theorem get_remove_ne (t : Table) {key k : String} (h : key ≠ k) :
    get (remove t key) k = get t k := by
  induction t with
  | nil => simp [remove]
  | cons kv rest ih =>
    obtain ⟨a, b⟩ := kv
    by_cases h2 : a = key
    · subst h2
      simp [remove, get, h, ih]
    · by_cases h3 : a = k <;> simp [remove, get, h2, h3, ih, Ne.symm h]

theorem mem_keys_insert {t : Table} {key x : String} {v : Value} :
    x ∈ keys (insert t key v) ↔ x ∈ keys t ∨ x = key := by
  induction t with
  | nil => simp [insert, keys]
  | cons kv rest ih =>
    obtain ⟨a, b⟩ := kv
    by_cases h : a = key
    · subst h
      simp [insert, keys_cons, List.mem_cons]
      tauto
    · simp [insert, h, keys_cons, List.mem_cons]
      rw [ih]
      tauto

theorem nodupKeys_insert {t : Table} (h : NodupKeys t) (key : String) (v : Value) :
    NodupKeys (insert t key v) := by
  induction t with
  | nil => simp [insert, NodupKeys, keys]
  | cons kv rest ih =>
    obtain ⟨a, b⟩ := kv
    rw [nodupKeys_cons] at h
    by_cases h2 : a = key
    · subst h2
      simp only [insert, if_pos rfl]
      exact nodupKeys_cons.mpr h
    · simp only [insert, if_neg h2]
      rw [nodupKeys_cons]
      refine ⟨?_, ih h.2⟩
      intro hmem
      rcases mem_keys_insert.mp hmem with h3 | h3
      · exact h.1 h3
      · exact h2 h3

theorem mem_keys_remove {t : Table} {key x : String} :
    x ∈ keys (remove t key) → x ∈ keys t := by
  induction t with
  | nil => simp [remove]
  | cons kv rest ih =>
    obtain ⟨a, b⟩ := kv
    by_cases h : a = key
    · simp [remove, h, keys_cons, List.mem_cons]
      intro hm
      exact Or.inr (ih hm)
    · simp [remove, h, keys_cons, List.mem_cons]
      intro hm
      rcases hm with h2 | h2
      · exact Or.inl h2
      · exact Or.inr (ih h2)

theorem nodupKeys_remove {t : Table} (h : NodupKeys t) (key : String) :
    NodupKeys (remove t key) := by
  induction t with
  | nil => simp [remove, nodupKeys_nil]
  | cons kv rest ih =>
    obtain ⟨a, b⟩ := kv
    rw [nodupKeys_cons] at h
    by_cases h2 : a = key
    · simp only [remove, if_pos h2]
      exact ih h.2
    · simp only [remove, if_neg h2]
      rw [nodupKeys_cons]
      exact ⟨fun hm => h.1 (mem_keys_remove hm), ih h.2⟩

theorem get_eq_none_iff {t : Table} {k : String} :
    get t k = none ↔ k ∉ keys t := by
  induction t with
  | nil => simp [get, keys]
  | cons kv rest ih =>
    obtain ⟨a, b⟩ := kv
    by_cases h : a = k
    · subst h
      simp [get, keys]
    · simp [get, keys, h, ih]
      intro h2
      exact fun hh => h hh.symm

theorem get_eq_some_of_mem {t : Table} {k : String} {v : Value}
    (hnd : NodupKeys t) (hm : (k, v) ∈ t) : get t k = some v := by
  induction t with
  | nil => simp at hm
  | cons kv rest ih =>
    obtain ⟨a, b⟩ := kv
    rw [nodupKeys_cons] at hnd
    rcases List.mem_cons.mp hm with h | h
    · cases h
      simp [get]
    · by_cases h2 : a = k
      · subst h2
        exfalso
        exact hnd.1 (List.mem_map_of_mem Prod.fst h)
      · simp [get, h2]
        exact ih hnd.2 h

theorem mem_of_get_eq_some {t : Table} {k : String} {v : Value}
    (h : get t k = some v) : (k, v) ∈ t := by
  induction t with
  | nil => simp [get] at h
  | cons kv rest ih =>
    obtain ⟨a, b⟩ := kv
    by_cases h2 : a = k
    · subst h2
      simp [get] at h
      subst h
      exact List.mem_cons_self _ _
    · simp [get, h2] at h
      exact List.mem_cons_of_mem _ (ih h)

theorem get_foldl_insert (l : Table) :
    ∀ (acc : Table) (k : String), NodupKeys l →
      get (l.foldl (fun c kv => insert c kv.1 kv.2) acc) k = (get l k <|> get acc k) := by
  induction l with
  | nil =>
    intro acc k _
    simp [get]
  | cons kv rest ih =>
    intro acc k hnd
    obtain ⟨a, b⟩ := kv
    rw [nodupKeys_cons] at hnd
    rw [List.foldl_cons, ih _ k hnd.2]
    by_cases h : a = k
    · subst h
      have h1 : get rest a = none := get_eq_none_iff.mpr hnd.1
      simp [get, h1, get_insert_self]
    · rw [get_insert_ne acc h]
      simp [get, h]

theorem get_foldl_changes (l : Table) :
    ∀ (acc : Table) (k : String), NodupKeys l →
      get (l.foldl
            (fun c kv => if kv.2.is_null then remove c kv.1 else insert c kv.1 kv.2)
            acc) k =
        (match get l k with
         | some v => if v.is_null then none else some v
         | none => get acc k) := by
  induction l with
  | nil =>
    intro acc k _
    simp [get]
  | cons kv rest ih =>
    intro acc k hnd
    obtain ⟨a, b⟩ := kv
    rw [nodupKeys_cons] at hnd
    rw [List.foldl_cons, ih _ k hnd.2]
    by_cases h : a = k
    · subst h
      have h1 : get rest a = none := get_eq_none_iff.mpr hnd.1
      by_cases hb : b.is_null = true
      · simp [get, h1, hb, get_remove_self]
      · simp [get, h1, hb, get_insert_self]
    · have hstep : get (if b.is_null then remove acc a else insert acc a b) k = get acc k := by
        by_cases hb : b.is_null = true
        · simp [hb, get_remove_ne acc h]
        · simp [hb, get_insert_ne acc h]
      rw [hstep]
      simp [get, h]

theorem nodupKeys_foldl_changes (l : Table) :
    ∀ acc, NodupKeys acc →
      NodupKeys (l.foldl
        (fun c kv => if kv.2.is_null then remove c kv.1 else insert c kv.1 kv.2)
        acc) := by
  induction l with
  | nil =>
    intro acc h
    simpa using h
  | cons kv rest ih =>
    intro acc h
    rw [List.foldl_cons]
    apply ih
    by_cases hb : kv.2.is_null = true
    · simpa [hb] using nodupKeys_remove h kv.1
    · simpa [hb] using nodupKeys_insert h kv.1 kv.2

end Table

namespace TableStack

theorem getFrom_append (l1 l2 : List Table) (k : String) :
    getFrom (l1 ++ l2) k = (getFrom l1 k <|> getFrom l2 k) := by
  induction l1 with
  | nil => simp [getFrom]
  | cons t rest ih =>
    cases h : Table.get t k <;> simp [getFrom, h, ih]

theorem get_collate_step (t : Table) :
    ∀ (out : Table) (k : String),
      Table.get
        (t.foldl
          (fun out kv =>
            if Table.contains_key out kv.1 then out else Table.insert out kv.1 kv.2)
          out) k
        = (Table.get out k <|> Table.get t k) := by
  induction t with
  | nil =>
    intro out k
    simp [Table.get]
  | cons kv rest ih =>
    intro out k
    obtain ⟨a, b⟩ := kv
    rw [List.foldl_cons, ih]
    by_cases h : a = k
    · subst h
      cases hout : Table.get out a with
      | some w => simp [Table.contains_key, hout, Table.get]
      | none => simp [Table.contains_key, hout, Table.get, Table.get_insert_self]
    · have hstep :
          Table.get (if Table.contains_key out a then out else Table.insert out a b) k
            = Table.get out k := by
        by_cases hc : Table.contains_key out a = true
        · simp [hc]
        · simp [hc, Table.get_insert_ne out h]
      rw [hstep]
      simp [Table.get, h]

theorem nodupKeys_collate_step (t : Table) :
    ∀ out, Table.NodupKeys out →
      Table.NodupKeys
        (t.foldl
          (fun out kv =>
            if Table.contains_key out kv.1 then out else Table.insert out kv.1 kv.2)
          out) := by
  induction t with
  | nil =>
    intro out h
    simpa using h
  | cons kv rest ih =>
    intro out h
    rw [List.foldl_cons]
    apply ih
    by_cases hc : Table.contains_key out kv.1 = true
    · simpa [hc] using h
    · simpa [hc] using Table.nodupKeys_insert h kv.1 kv.2

theorem get_collate (s : TableStack) (k : String) :
    Table.get s.collate k = s.get k := by
  suffices h : ∀ (ts : List Table) (out : Table),
      Table.get
        (ts.foldl
          (fun out t =>
            t.foldl
              (fun out kv =>
                if Table.contains_key out kv.1 then out else Table.insert out kv.1 kv.2)
              out)
          out) k = (Table.get out k <|> getFrom ts k) by
    have h2 := h s.tables []
    simpa [collate, TableStack.get, Table.get] using h2
  intro ts
  induction ts with
  | nil =>
    intro out
    simp [getFrom]
  | cons t rest ih =>
    intro out
    rw [List.foldl_cons, ih, get_collate_step]
    cases hh : Table.get t k <;> cases hout : Table.get out k <;>
      simp [getFrom, hh, hout]

theorem nodupKeys_collate (s : TableStack) : Table.NodupKeys s.collate := by
  suffices h : ∀ (ts : List Table) (out : Table), Table.NodupKeys out →
      Table.NodupKeys
        (ts.foldl
          (fun out t =>
            t.foldl
              (fun out kv =>
                if Table.contains_key out kv.1 then out else Table.insert out kv.1 kv.2)
              out)
          out) from h s.tables [] Table.nodupKeys_nil
  intro ts
  induction ts with
  | nil =>
    intro out h
    simpa using h
  | cons t rest ih =>
    intro out h
    rw [List.foldl_cons]
    exact ih _ (nodupKeys_collate_step t out h)

theorem diff_foldl_get (other : TableStack) (l : Table) :
    ∀ (o : Option Table) (k : String), Table.NodupKeys l →
      Table.get
        ((l.foldl
          (fun out kv =>
            if other.get kv.1 ≠ some kv.2 then
              some (Table.insert (out.getD []) kv.1 kv.2)
            else out)
          o).getD []) k =
        (match Table.get l k with
         | some v => if other.get k = some v then Table.get (o.getD []) k else some v
         | none => Table.get (o.getD []) k) := by
  induction l with
  | nil =>
    intro o k _
    simp [Table.get]
  | cons kv rest ih =>
    intro o k hnd
    obtain ⟨a, b⟩ := kv
    rw [Table.nodupKeys_cons] at hnd
    rw [List.foldl_cons, ih _ k hnd.2]
    by_cases h : a = k
    · subst h
      have h1 : Table.get rest a = none := Table.get_eq_none_iff.mpr hnd.1
      by_cases hd : other.get a = some b
      · simp [Table.get, h1, hd]
      · simp [Table.get, h1, hd, Table.get_insert_self]
    · have hstep :
          Table.get
            ((if other.get a ≠ some b then
                some (Table.insert (o.getD []) a b)
              else o).getD []) k = Table.get (o.getD []) k := by
        by_cases hd : other.get a = some b
        · simp [hd]
        · simp [hd, Table.get_insert_ne _ h]
      rw [hstep]
      simp [Table.get, h]

theorem diff_foldl_none (other : TableStack) (l : Table) :
    ∀ (o : Option Table),
      (l.foldl
        (fun out kv =>
          if other.get kv.1 ≠ some kv.2 then
            some (Table.insert (out.getD []) kv.1 kv.2)
          else out)
        o) = none ↔
        (o = none ∧ ∀ kv ∈ l, other.get kv.1 = some kv.2) := by
  induction l with
  | nil =>
    intro o
    simp
  | cons kv rest ih =>
    intro o
    obtain ⟨a, b⟩ := kv
    rw [List.foldl_cons, ih]
    by_cases hd : other.get a = some b
    · simp [hd, List.forall_mem_cons]
    · simp [hd, List.forall_mem_cons]

end TableStack

namespace KeyValidator

theorem validate_entries_ok_iff (v : KeyValidator) (l : List (String × Value)) :
    v.validate_entries l = .ok () ↔ ∀ kv ∈ l, v.keys.contains kv.1 = true := by
  induction l with
  | nil => simp [validate_entries]
  | cons kv rest ih =>
    obtain ⟨a, b⟩ := kv
    by_cases h : a ∈ v.keys
    · simp [validate_entries, validate, h, ih, List.forall_mem_cons]
    · simp [validate_entries, validate, h, List.forall_mem_cons]

theorem validate_entries_spec (v : KeyValidator) (l : List (String × Value)) :
    v.validate_entries l = .ok () ∨
      ∃ k, v.validate_entries l = .error (.IllegalKey k) ∧
        v.keys.contains k = false ∧ k ∈ l.map Prod.fst := by
  induction l with
  | nil =>
    left
    simp [validate_entries]
  | cons kv rest ih =>
    obtain ⟨a, b⟩ := kv
    by_cases h : a ∈ v.keys
    · rcases ih with hok | ⟨k, hk⟩
      · left
        simp [validate_entries, validate, h, hok]
      · right
        refine ⟨k, ?_, hk.2.1, by simp [hk.2.2]⟩
        simp [validate_entries, validate, h, hk.1]
    · right
      refine ⟨a, ?_, by simpa using h, by simp⟩
      simp [validate_entries, validate, h]

end KeyValidator

namespace ConfigPair

theorem rebuild_user (p : ConfigPair) : p.rebuild.user = p.user := rfl

theorem rebuild_base (p : ConfigPair) : p.rebuild.base = p.base := rfl

theorem rebuild_cacheMerged (p : ConfigPair) (h : Table.NodupKeys (p.user.getD [])) :
    p.rebuild.CacheMerged := by
  intro k
  cases hu : p.user with
  | none => simp [ConfigPair.rebuild, CacheMerged, hu, Table.get]
  | some u =>
    have h2 : Table.NodupKeys u := by simpa [hu] using h
    simp only [ConfigPair.rebuild, CacheMerged, hu, Option.getD_some]
    rw [Table.get_foldl_insert u (p.base.getD []) k h2]

theorem set_table_ok {p q : ConfigPair} {t : Table} (h : p.set_table t = .ok q) :
    q = ({ p with user := some t }).rebuild := by
  cases hv : p.validator.validate_table t with
  | error e =>
    simp [ConfigPair.set_table, hv] at h
  | ok u =>
    simp [ConfigPair.set_table, hv] at h
    exact h.symm

theorem set_table_error {p : ConfigPair} {t : Table} {e : ConfigError}
    (h : p.validator.validate_table t = .error e) : p.set_table t = .error e := by
  simp [ConfigPair.set_table, h]

theorem update_table_ok {p q : ConfigPair} {t : Table} (h : p.update_table t = .ok q) :
    q = ({ p with
      user := some (t.foldl
        (fun (c : Table) (kv : String × Value) =>
          if kv.2.is_null then Table.remove c kv.1 else Table.insert c kv.1 kv.2)
        (p.user.getD [])) }).rebuild := by
  cases hv : p.validator.validate_table t with
  | error e =>
    simp [ConfigPair.update_table, hv] at h
  | ok u =>
    simp [ConfigPair.update_table, hv] at h
    exact h.symm

theorem update_table_error {p : ConfigPair} {t : Table} {e : ConfigError}
    (h : p.validator.validate_table t = .error e) : p.update_table t = .error e := by
  simp [ConfigPair.update_table, h]

theorem applyCall_wf_merged {p : ConfigPair} {c : PairCall}
    (hw : p.Wf) (hm : p.CacheMerged) (hc : c.Wf) :
    (p.applyCall c).Wf ∧ (p.applyCall c).CacheMerged := by
  cases c with
  | set t =>
    cases hs : p.set_table t with
    | error e =>
      simp only [ConfigPair.applyCall, hs]
      exact ⟨hw, hm⟩
    | ok q =>
      simp only [ConfigPair.applyCall, hs]
      have hq := set_table_ok hs
      have hwt : Table.NodupKeys t := hc
      subst hq
      constructor
      · simpa [ConfigPair.Wf, ConfigPair.rebuild] using hwt
      · exact rebuild_cacheMerged _ (by simpa using hwt)
  | update t =>
    cases hs : p.update_table t with
    | error e =>
      simp only [ConfigPair.applyCall, hs]
      exact ⟨hw, hm⟩
    | ok q =>
      simp only [ConfigPair.applyCall, hs]
      have hq := update_table_ok hs
      have hnew : Table.NodupKeys
          (t.foldl
            (fun (c : Table) (kv : String × Value) =>
              if kv.2.is_null then Table.remove c kv.1 else Table.insert c kv.1 kv.2)
            (p.user.getD [])) :=
        Table.nodupKeys_foldl_changes t _ hw
      subst hq
      constructor
      · simpa [ConfigPair.Wf, ConfigPair.rebuild] using hnew
      · exact rebuild_cacheMerged _ (by simpa using hnew)

theorem applyCalls_wf_merged (cs : List PairCall) :
    ∀ (p : ConfigPair), p.Wf → p.CacheMerged → (∀ c ∈ cs, c.Wf) →
      (p.applyCalls cs).Wf ∧ (p.applyCalls cs).CacheMerged := by
  induction cs with
  | nil =>
    intro p hw hm _
    exact ⟨hw, hm⟩
  | cons c rest ih =>
    intro p hw hm hc
    rw [ConfigPair.applyCalls, List.foldl_cons]
    have h1 := applyCall_wf_merged hw hm (hc c (List.mem_cons_self c rest))
    exact ih _ h1.1 h1.2 (fun c2 hc2 => hc c2 (List.mem_cons_of_mem c hc2))

end ConfigPair

/-! ## The claims -/

/-- **C1.** For every `ConfigPair` and every sequence of mutating calls
(`set_table`, `update_table`), after each call returns the pair's cache
equals the merge of `base` and `user`: for every key present in both
tables the user value wins, a key only in `base` keeps its base value,
and a key only in `user` keeps its user value (`CacheMerged`). Stated
over every well-formed starting pair and sequence; any prefix of a
sequence is again a sequence, so the invariant holds after each call. -/
theorem C1_cache_is_merge_after_every_call
    (p : ConfigPair) (cs : List PairCall)
    (hw : p.Wf) (hm : p.CacheMerged) (hc : ∀ c ∈ cs, c.Wf) :
    (p.applyCalls cs).CacheMerged :=
  (ConfigPair.applyCalls_wf_merged cs p hw hm hc).2

/-- Witness for C1 at a concrete pair and call sequence. -/
theorem C1_witness :
    (ConfigPair.applyCalls
      ⟨some [("tab_size", Value.num 4)], none, [("tab_size", Value.num 4)],
        ⟨["tab_size", "font_face"]⟩⟩
      [PairCall.set [("font_face", Value.str "nice")],
        PairCall.update [("tab_size", Value.num 42)]]).CacheMerged := by
  apply C1_cache_is_merge_after_every_call
  · simp [ConfigPair.Wf, Table.NodupKeys, Table.keys]
  · intro k
    simp [Table.get]
  · intro c hc
    rcases List.mem_cons.mp hc with rfl | hc2
    · simp [PairCall.Wf, Table.NodupKeys, Table.keys]
    · rcases List.mem_cons.mp hc2 with rfl | hc3
      · simp [PairCall.Wf, Table.NodupKeys, Table.keys]
      · simp at hc3

/-- **C2.** For every `ConfigPair` and every input table containing at
least one key outside the pair's legal-key set, `set_table` (and likewise
`update_table`) returns an `IllegalKey` error, and the pair — in
particular its `user` table and its `cache` — is left exactly as it was:
no partial application. -/
theorem C2_illegal_key_atomic (p : ConfigPair) (t : Table)
    (h : ∃ kv ∈ t, kv.1 ∉ p.validator.keys) :
    (∃ k, k ∉ p.validator.keys ∧ p.set_table t = .error (.IllegalKey k)) ∧
    (∃ k, k ∉ p.validator.keys ∧ p.update_table t = .error (.IllegalKey k)) ∧
    p.applyCall (.set t) = p ∧ p.applyCall (.update t) = p := by
  have hno : p.validator.validate_table t ≠ .ok () := by
    intro hok
    obtain ⟨kv, hmem, hnk⟩ := h
    have h2 := (KeyValidator.validate_entries_ok_iff p.validator t).mp hok kv hmem
    simp at h2
    exact hnk h2
  rcases KeyValidator.validate_entries_spec p.validator t with hok | ⟨k, hk1, hk2, hk3⟩
  · exact absurd hok hno
  · have herr : p.validator.validate_table t = .error (.IllegalKey k) := hk1
    have hk4 : k ∉ p.validator.keys := by simpa using hk2
    refine ⟨⟨k, hk4, ConfigPair.set_table_error herr⟩,
      ⟨k, hk4, ConfigPair.update_table_error herr⟩, ?_, ?_⟩
    · simp [ConfigPair.applyCall, ConfigPair.set_table_error herr]
    · simp [ConfigPair.applyCall, ConfigPair.update_table_error herr]

/-- Witness for C2: one illegal key among legal ones. -/
theorem C2_witness :
    (∃ kv ∈ ([("tab_size", Value.num 42), ("font_frace", Value.str "x")] : Table),
      kv.1 ∉ (⟨["tab_size", "font_face"]⟩ : KeyValidator).keys) ∧
    (ConfigPair.applyCall
      ⟨none, none, [], ⟨["tab_size", "font_face"]⟩⟩
      (.set [("tab_size", Value.num 42), ("font_frace", Value.str "x")]) =
      ⟨none, none, [], ⟨["tab_size", "font_face"]⟩⟩) := by
  constructor
  · exact ⟨("font_frace", Value.str "x"), by simp, by simp⟩
  · exact (C2_illegal_key_atomic
      ⟨none, none, [], ⟨["tab_size", "font_face"]⟩⟩
      [("tab_size", Value.num 42), ("font_frace", Value.str "x")]
      ⟨("font_frace", Value.str "x"), by simp, by simp⟩).2.2.1

/-- **C3.** For every well-formed `ConfigPair` and every valid changes
table, `update_table` applies the changes onto the existing user table:
a key mapped to null is removed from `user` (and its cached resolved
value reverts to the base value, or is absent when base lacks it), a key
mapped to a non-null value is set or overwritten in `user`, and a user
key absent from the changes is unchanged. -/
theorem C3_update_table_semantics (p : ConfigPair) (changes : Table) (q : ConfigPair)
    (hw : p.Wf) (hnd : Table.NodupKeys changes)
    (hok : p.update_table changes = .ok q) :
    (∀ k v, Table.get changes k = some v → v.is_null = false →
      Table.get (q.user.getD []) k = some v) ∧
    (∀ k v, Table.get changes k = some v → v.is_null = true →
      Table.get (q.user.getD []) k = none ∧
      Table.get q.cache k = Table.get (p.base.getD []) k) ∧
    (∀ k, Table.get changes k = none →
      Table.get (q.user.getD []) k = Table.get (p.user.getD []) k) := by
  have hq := ConfigPair.update_table_ok hok
  set newUser := changes.foldl
    (fun c kv => if kv.2.is_null then Table.remove c kv.1 else Table.insert c kv.1 kv.2)
    (p.user.getD []) with hnu
  have husr : q.user = some newUser := by rw [hq]; rfl
  have hbase : q.base = p.base := by rw [hq]; rfl
  have hget : ∀ k, Table.get newUser k =
      (match Table.get changes k with
       | some v => if v.is_null then none else some v
       | none => Table.get (p.user.getD []) k) := by
    intro k
    exact Table.get_foldl_changes changes (p.user.getD []) k hnd
  have hnewnd : Table.NodupKeys newUser := Table.nodupKeys_foldl_changes changes _ hw
  have hcache : ∀ k, Table.get q.cache k =
      (Table.get (q.user.getD []) k <|> Table.get (q.base.getD []) k) := by
    intro k
    have h2 : ({ p with user := some newUser }).rebuild.CacheMerged :=
      ConfigPair.rebuild_cacheMerged _ (by simpa using hnewnd)
    rw [hq]
    exact h2 k
  refine ⟨?_, ?_, ?_⟩
  · intro k v hv hnn
    rw [husr, Option.getD_some, hget k, hv]
    simp [hnn]
  · intro k v hv hn
    have hu : Table.get (q.user.getD []) k = none := by
      rw [husr, Option.getD_some, hget k, hv]
      simp [hn]
    refine ⟨hu, ?_⟩
    rw [hcache k, hu, hbase]
    simp
  · intro k hv
    rw [husr, Option.getD_some, hget k, hv]

/-- Witness for C3: update with a null and a fresh key, at the concrete
result pair. -/
theorem C3_witness :
    ((⟨some [("tab_size", Value.num 1)], some [("tab_size", Value.num 5)],
        [("tab_size", Value.num 5)], ⟨["tab_size", "font_face"]⟩⟩ :
          ConfigPair).update_table
      [("tab_size", Value.null), ("font_face", Value.str "Roboto")] =
        .ok ⟨some [("tab_size", Value.num 1)], some [("font_face", Value.str "Roboto")],
          [("tab_size", Value.num 1), ("font_face", Value.str "Roboto")],
          ⟨["tab_size", "font_face"]⟩⟩) ∧
    Table.get ((some [("font_face", Value.str "Roboto")]).getD []) "tab_size" = none ∧
    Table.get [("tab_size", Value.num 1), ("font_face", Value.str "Roboto")] "tab_size"
      = some (Value.num 1) ∧
    Table.get ((some [("font_face", Value.str "Roboto")]).getD []) "font_face"
      = some (Value.str "Roboto") := by
  have h := C3_update_table_semantics
    ⟨some [("tab_size", Value.num 1)], some [("tab_size", Value.num 5)],
      [("tab_size", Value.num 5)], ⟨["tab_size", "font_face"]⟩⟩
    [("tab_size", Value.null), ("font_face", Value.str "Roboto")]
    ⟨some [("tab_size", Value.num 1)], some [("font_face", Value.str "Roboto")],
      [("tab_size", Value.num 1), ("font_face", Value.str "Roboto")],
      ⟨["tab_size", "font_face"]⟩⟩
    (by simp [ConfigPair.Wf, Table.NodupKeys, Table.keys])
    (by simp [Table.NodupKeys, Table.keys]) (by decide)
  refine ⟨by decide, ?_, ?_, ?_⟩
  · exact (h.2.1 "tab_size" Value.null (by decide) (by decide)).1
  · exact (h.2.1 "tab_size" Value.null (by decide) (by decide)).2
  · exact h.1 "font_face" (Value.str "Roboto") (by decide) (by decide)

/-- **C5.** For every domain kind the validator accepts exactly the keys
of its fixed legal set: General gets the general keys plus the top-level
keys, every other domain kind gets only the general keys; values are
never inspected (the result does not depend on the value); in particular
the top-level key `plugin_search_path` is rejected with `IllegalKey` for
every non-General domain. -/
theorem C5_validator_whitelist (d : ConfigDomain) (key : String) (v : Value) :
    ((KeyValidator.for_domain d).validate key v =
      (if key ∈ (match d with
          | .General => defaults.GENERAL_KEYS ++ defaults.TOP_LEVEL_KEYS
          | _ => defaults.GENERAL_KEYS)
        then .ok () else .error (.IllegalKey key))) ∧
    (∀ s, (KeyValidator.for_domain (.Syn s)).validate "plugin_search_path" v
      = .error (.IllegalKey "plugin_search_path")) ∧
    (∀ w, (KeyValidator.for_domain (.UserOverride w)).validate "plugin_search_path" v
      = .error (.IllegalKey "plugin_search_path")) ∧
    (∀ w, (KeyValidator.for_domain (.SysOverride w)).validate "plugin_search_path" v
      = .error (.IllegalKey "plugin_search_path")) := by
  refine ⟨?_, ?_, ?_, ?_⟩
  · cases d with
    | General =>
      by_cases h : key ∈ defaults.GENERAL_KEYS ++ defaults.TOP_LEVEL_KEYS <;>
        simp [KeyValidator.for_domain, KeyValidator.validate, h]
    | Syn s =>
      by_cases h : key ∈ defaults.GENERAL_KEYS <;>
        simp [KeyValidator.for_domain, KeyValidator.validate, h]
    | UserOverride w =>
      by_cases h : key ∈ defaults.GENERAL_KEYS <;>
        simp [KeyValidator.for_domain, KeyValidator.validate, h]
    | SysOverride w =>
      by_cases h : key ∈ defaults.GENERAL_KEYS <;>
        simp [KeyValidator.for_domain, KeyValidator.validate, h]
  · intro s
    rfl
  · intro w
    rfl
  · intro w
    rfl

/-- **C8.** `should_load_file` accepts exactly the paths whose extension is
the config-file extension, whose file stem resolves to a known domain,
and whose parent directory is exactly the configured config directory —
so wrong extensions, unresolvable names, nested subdirectories, and every
path when no config directory is set, are rejected. -/
theorem C8_should_load_iff (m : ConfigManager) (p : FsPath) :
    m.should_load_file p = true ↔
      (p.extension = some "xiconfig" ∧
        (∃ d, ConfigDomain.try_from_path p = .ok d) ∧
        (∃ dir, m.config_dir = some dir ∧ p.parent = some dir)) := by
  unfold ConfigManager.should_load_file
  constructor
  · intro h
    rw [Bool.and_eq_true, Bool.and_eq_true] at h
    obtain ⟨⟨h1, h2⟩, h3⟩ := h
    refine ⟨by simpa using h1, ?_, ?_⟩
    · cases ht : ConfigDomain.try_from_path p with
      | ok d => exact ⟨d, rfl⟩
      | error e =>
        rw [ht] at h2
        simp at h2
    · cases hc : m.config_dir with
      | none =>
        rw [hc] at h3
        simp at h3
      | some dir =>
        rw [hc] at h3
        simp at h3
        exact ⟨dir, rfl, h3.symm⟩
  · rintro ⟨h1, ⟨d₀, hd⟩, ⟨dir, hdir, hpar⟩⟩
    rw [Bool.and_eq_true, Bool.and_eq_true]
    refine ⟨⟨by simpa using h1, ?_⟩, ?_⟩
    · rw [hd]
    · rw [hdir]
      simp [hpar]

/-- Deserializing an array of strings yields exactly those paths. -/
theorem valuesToPaths_strs (entries : List String) :
    valuesToPaths (entries.map Value.str) = some (entries.map strToPath) := by
  induction entries with
  | nil => rfl
  | cons e rest ih => simp [valuesToPaths, ih]

/-- **C9.** When the General domain's cache holds the reserved path-list
key, `plugin_search_path` returns that list with every entry joined onto
the configured config directory (which leaves absolute entries unchanged
and resolves relative ones; entries are unchanged when no config
directory is set), and with the extras directory, if set, appended
unconditionally as the final entry with no deduplication — even when no
config directory is set. -/
theorem C9_plugin_search_path (m : ConfigManager) (pair : ConfigPair)
    (entries : List String)
    (hp : alistGet m.configs ConfigDomain.General = some pair)
    (hv : Table.get pair.cache "plugin_search_path"
      = some (Value.arr (entries.map Value.str))) :
    m.plugin_search_path = some
      ((entries.map (fun e =>
        match m.config_dir with
        | some dir => dir.join (strToPath e)
        | none => strToPath e)) ++ m.extras_dir.toList) := by
  simp only [ConfigManager.plugin_search_path, hp, hv, valueToPathList,
    valuesToPaths_strs]
  cases hc : m.config_dir <;> cases he : m.extras_dir <;>
    simp [hc, he, List.map_map, Function.comp]

/-- Witness for C9 at a concrete manager with one relative entry, one
absolute entry, a config dir and an extras dir. -/
theorem C9_witness :
    (alistGet
        [(ConfigDomain.General,
          (⟨none, none,
            [("plugin_search_path", Value.arr [Value.str "plugins", Value.str "/abs"])],
            ⟨[]⟩⟩ : ConfigPair))]
        ConfigDomain.General
      = some ⟨none, none,
          [("plugin_search_path", Value.arr [Value.str "plugins", Value.str "/abs"])],
          ⟨[]⟩⟩) ∧
    (ConfigManager.plugin_search_path
      ⟨[(ConfigDomain.General,
          ⟨none, none,
            [("plugin_search_path", Value.arr [Value.str "plugins", Value.str "/abs"])],
            ⟨[]⟩⟩)],
        [], some ⟨true, ["home", "cfg"]⟩, some ⟨true, ["extras"]⟩⟩
      = some [⟨true, ["home", "cfg", "plugins"]⟩, ⟨true, ["abs"]⟩,
          ⟨true, ["extras"]⟩]) := by
  refine ⟨by decide, ?_⟩
  rw [C9_plugin_search_path
    ⟨[(ConfigDomain.General,
        ⟨none, none,
          [("plugin_search_path", Value.arr [Value.str "plugins", Value.str "/abs"])],
          ⟨[]⟩⟩)],
      [], some ⟨true, ["home", "cfg"]⟩, some ⟨true, ["extras"]⟩⟩
    ⟨none, none,
      [("plugin_search_path", Value.arr [Value.str "plugins", Value.str "/abs"])],
      ⟨[]⟩⟩
    ["plugins", "/abs"] (by decide) (by decide)]
  decide

/-- **C7.** Resolution reads the manager without modifying it: the stack
built by `get_buffer_config` consists of exactly the caches of the
already-existing pairs among the queried domains, in query order
reversed; a queried domain with no pair is skipped, and — the function
being a pure read of the manager, mirroring the `&self` borrow in the
source — no pair is ever created as a side effect. -/
theorem C7_resolution_reads_only (m : ConfigManager) (syn : Option SyntaxDefinition)
    (view_id : Option ViewIdentifier) :
    (m.get_buffer_config syn view_id).source.tables =
      ((queriedDomains syn view_id).filterMap
        (fun d => (alistGet m.configs d).map (fun p => p.cache))).reverse := by
  have hblock : ∀ d : ConfigDomain,
      (([alistGet m.configs d] : List (Option ConfigPair)).filterMap id).map
          (fun c => c.cache)
        = [d].filterMap (fun d => (alistGet m.configs d).map (fun p => p.cache)) := by
    intro d
    cases hg : alistGet m.configs d <;> simp [hg]
  have hopt : ∀ {α : Type} (f : α → ConfigDomain) (o : Option α),
      ((o.map (fun x => alistGet m.configs (f x))).toList.filterMap id).map
          (fun c => c.cache)
        = ((o.map f).toList).filterMap
            (fun d => (alistGet m.configs d).map (fun p => p.cache)) := by
    intro α f o
    cases o with
    | none => simp
    | some x => simpa using hblock (f x)
  simp only [ConfigManager.get_buffer_config, TableStack.into_config, queriedDomains]
  rw [List.filterMap_append, List.filterMap_append, List.filterMap_append,
    List.map_append, List.map_append, List.map_append,
    List.filterMap_append, List.filterMap_append, List.filterMap_append]
  rw [hblock, hopt ConfigDomain.Syn syn, hopt ConfigDomain.SysOverride view_id,
    hopt ConfigDomain.UserOverride view_id]

/-- `Option.orElse` is associative. -/
theorem opt_orElse_assoc (a b c : Option Value) :
    ((a <|> b) <|> c) = (a <|> (b <|> c)) := by
  cases a <;> simp

/-- The first hit over the reversed, collapsed option list equals the
right-to-left choice over the options. -/
theorem getFrom_rev_opts (k : String) : ∀ (opts : List (Option ConfigPair)),
    TableStack.getFrom (((opts.filterMap id).map (fun c => c.cache)).reverse) k =
      opts.foldr (fun o acc => (acc <|> (o.bind (fun p => Table.get p.cache k)))) none := by
  intro opts
  induction opts with
  | nil => simp [TableStack.getFrom]
  | cons o rest ih =>
    cases o with
    | none => simpa using ih
    | some p =>
      simp only [List.filterMap_cons, id, List.map_cons, List.reverse_cons,
        List.foldr_cons]
      rw [TableStack.getFrom_append, ih]
      cases hpc : Table.get p.cache k <;> simp [TableStack.getFrom, hpc]

/-- **C4.** The effective value of each key in the resolved snapshot is
the value from the most specific existing domain whose cache contains
the key, with precedence `UserOverride(view)` over `SysOverride(view)`
over `Syntax(syntax)` over `General`; a missing entry (or missing whole
pair) at one level falls through to the next less specific level. -/
theorem C4_resolve_precedence (m : ConfigManager) (syn : Option SyntaxDefinition)
    (view_id : Option ViewIdentifier) (k : String) :
    Table.get (m.get_buffer_config syn view_id).items k =
      ((view_id.bind (fun v => (alistGet m.configs (ConfigDomain.UserOverride v)).bind
          (fun p => Table.get p.cache k))) <|>
        ((view_id.bind (fun v => (alistGet m.configs (ConfigDomain.SysOverride v)).bind
          (fun p => Table.get p.cache k))) <|>
        ((syn.bind (fun s => (alistGet m.configs (ConfigDomain.Syn s)).bind
          (fun p => Table.get p.cache k))) <|>
        ((alistGet m.configs ConfigDomain.General).bind
          (fun p => Table.get p.cache k))))) := by
  simp only [ConfigManager.get_buffer_config, TableStack.into_config]
  rw [show ∀ (s : TableStack), Table.get s.collate k = s.get k from
    fun s => TableStack.get_collate s k]
  rw [TableStack.get, getFrom_rev_opts]
  cases syn <;> cases view_id <;>
    simp [List.foldr, opt_orElse_assoc]

/-- Witness for C4: the full four-level chain at a concrete manager. -/
theorem C4_witness :
    Table.get
      ((ConfigManager.get_buffer_config
        ⟨[(ConfigDomain.General, ⟨none, none, [("t", Value.num 1)], ⟨[]⟩⟩),
          (ConfigDomain.Syn ⟨"yaml"⟩, ⟨none, none, [("t", Value.num 2)], ⟨[]⟩⟩),
          (ConfigDomain.SysOverride ⟨"v1"⟩, ⟨none, none, [("t", Value.num 3)], ⟨[]⟩⟩),
          (ConfigDomain.UserOverride ⟨"v1"⟩, ⟨none, none, [("t", Value.num 4)], ⟨[]⟩⟩)],
          [], none, none⟩
        (some ⟨"yaml"⟩) (some ⟨"v1"⟩)).items) "t" = some (Value.num 4) := by
  rw [C4_resolve_precedence]
  decide

/-- **C6.** `diff(current, previous)` collates `current` and returns
exactly those key/value pairs of the collated current whose value differs
from `previous.get(key)` through previous's own precedence chain (a key
absent from previous counts as differing); when no key differs it
returns `none`. -/
theorem C6_diff_exact (s other : TableStack) :
    (s.diff other = none ↔
      ∀ k v, Table.get s.collate k = some v → other.get k = some v) ∧
    (∀ d, s.diff other = some d → ∀ k,
      Table.get d k =
        (match Table.get s.collate k with
         | some v => if other.get k = some v then none else some v
         | none => none)) := by
  constructor
  · simp only [TableStack.diff]
    rw [TableStack.diff_foldl_none other s.collate none]
    constructor
    · intro h k v hget
      exact h.2 (k, v) (Table.mem_of_get_eq_some hget)
    · intro h
      refine ⟨rfl, fun kv hkv => ?_⟩
      exact h kv.1 kv.2 (Table.get_eq_some_of_mem (TableStack.nodupKeys_collate s) hkv)
  · intro d hd k
    have hget := TableStack.diff_foldl_get other s.collate none k
      (TableStack.nodupKeys_collate s)
    simp only [TableStack.diff] at hd
    rw [hd] at hget
    simp only [Option.getD_some] at hget
    exact hget

/-- Witness for C6: the spec's diff example, `{tab_size: 42}` against
`{tab_size: 6}`. -/
theorem C6_witness :
    Table.get [("tab_size", Value.num 42)] "tab_size" =
      (match Table.get
          (TableStack.collate
            ⟨[[("tab_size", Value.num 42), ("translate_tabs_to_spaces", Value.bool true)]]⟩)
          "tab_size" with
       | some v =>
         if TableStack.get
              ⟨[[("tab_size", Value.num 6), ("translate_tabs_to_spaces", Value.bool true)]]⟩
              "tab_size" = some v then none else some v
       | none => none) :=
  (C6_diff_exact
    ⟨[[("tab_size", Value.num 42), ("translate_tabs_to_spaces", Value.bool true)]]⟩
    ⟨[[("tab_size", Value.num 6), ("translate_tabs_to_spaces", Value.bool true)]]⟩).2
    [("tab_size", Value.num 42)] (by decide) "tab_size"

/-- **C10.** `diff` examines only keys present in the collation of
`current`: a key absent from current's collation — for instance one that
was deleted since `previous` — never appears in the returned diff. -/
theorem C10_diff_skips_removed_keys (s other : TableStack) (d : Table) (k : String)
    (hd : s.diff other = some d) (habs : Table.get s.collate k = none) :
    Table.get d k = none := by
  have hget := TableStack.diff_foldl_get other s.collate none k
    (TableStack.nodupKeys_collate s)
  simp only [TableStack.diff] at hd
  rw [hd] at hget
  simp only [Option.getD_some] at hget
  rw [habs] at hget
  simpa [Table.get] using hget

/-- Witness for C10: key `b` exists only in the previous stack, and the
diff of the two stacks has no entry for it. -/
theorem C10_witness :
    Table.get [("a", Value.num 1)] "b" = none :=
  C10_diff_skips_removed_keys
    ⟨[[("a", Value.num 1)]]⟩
    ⟨[[("a", Value.num 2), ("b", Value.num 9)]]⟩
    [("a", Value.num 1)] "b" (by decide) (by decide)

end XiConfig
